import Mathlib

/-!
Verification development for the `RepoUrlPicker` form-field component
(`plugins/scaffolder/src/components/fields/RepoUrlPicker/RepoUrlPicker.tsx`).

The component is embedded shallowly:
* JavaScript `string | undefined` values become `Option String`
  (`none` = `undefined`), and JavaScript truthiness of such a value is
  "is `some` of a non-empty string".
* The two pure codec functions `splitFormData` and `serializeFormData`
  are translated directly.
* The platform primitives the code calls (`new URL(...)` restricted to
  `https` URLs, `URLSearchParams`) are modelled by executable Lean
  functions operating on character lists.  The model covers the WHATWG
  behavior on the inputs exercised here: tab/newline stripping and
  trailing-space trimming, authority extraction, userinfo and port
  handling (default-port dropping, digit validation), ASCII host
  lowercasing, forbidden-host-character rejection, query extraction,
  `application/x-www-form-urlencoded` serialization and parsing with
  percent-encoding and `+`-for-space.  IDNA/punycode, percent-encoded
  hosts, IPv4/IPv6 host canonicalization are outside the modelled
  domain and treated as parse failures; no theorem below depends on
  that region.
* The JSX visibility conditions, the default-host `useEffect`, and the
  `onBlur` credential handler are embedded as pure functions of their
  inputs.
-/

/-! ## Generic character-list utilities -/

/-- Split a character list at every occurrence of `sep`.  Mirrors the
splitting behavior used by `URLSearchParams` on `&`: the result always
has one more piece than there are separators (so `[[]]` on `[]`). -/
def splitCharL (sep : Char) : List Char → List (List Char)
  | [] => [[]]
  | c :: rest =>
    if c = sep then [] :: splitCharL sep rest
    else
      match splitCharL sep rest with
      | [] => [[c]]
      | p :: ps => (c :: p) :: ps

/-- Take characters until the first one satisfying `p`; returns the
prefix and the untouched remainder (terminator included). -/
def takeUntilL (p : Char → Bool) : List Char → List Char × List Char
  | [] => ([], [])
  | c :: rest =>
    if p c then ([], c :: rest)
    else
      let r := takeUntilL p rest
      (c :: r.1, r.2)

/-- Split at the first occurrence of `sep`: the part before it and,
when the separator occurs, the part after it. -/
def splitFirstL (sep : Char) : List Char → List Char × Option (List Char)
  | [] => ([], none)
  | c :: rest =>
    if c = sep then ([], some rest)
    else
      let r := splitFirstL sep rest
      (c :: r.1, r.2)

/-! ## application/x-www-form-urlencoded codec (model of `URLSearchParams`) -/

/-- Characters the `application/x-www-form-urlencoded` serializer
leaves unchanged: ASCII alphanumerics and `*`, `-`, `.`, `_`. -/
def safeQueryChar (c : Char) : Bool :=
  c.isAlphanum || decide (c = '*') || decide (c = '-') ||
    decide (c = '.') || decide (c = '_')

/-- UTF-8 byte sequence of one character (bytes as `Nat < 256`). -/
def utf8BytesOfChar (c : Char) : List Nat :=
  let n := c.toNat
  if n < 0x80 then [n]
  else if n < 0x800 then [0xC0 + n / 64, 0x80 + n % 64]
  else if n < 0x10000 then
    [0xE0 + n / 4096, 0x80 + n / 64 % 64, 0x80 + n % 64]
  else
    [0xF0 + n / 262144, 0x80 + n / 4096 % 64, 0x80 + n / 64 % 64, 0x80 + n % 64]

/-- Upper-case hexadecimal digit of a value below 16. -/
def hexDigitUpper (n : Nat) : Char :=
  if n < 10 then Char.ofNat (48 + n) else Char.ofNat (55 + n)

/-- The `application/x-www-form-urlencoded` serializer on one string
(as a character list): safe characters pass through, space becomes
`+`, everything else is percent-encoded byte-wise. -/
def encodeWFUList (l : List Char) : List Char :=
  l.flatMap fun c =>
    if safeQueryChar c then [c]
    else if c = ' ' then ['+']
    else (utf8BytesOfChar c).flatMap fun b =>
      ['%', hexDigitUpper (b / 16), hexDigitUpper (b % 16)]

/-- Value of one hexadecimal digit character, if it is one. -/
def hexVal (c : Char) : Option Nat :=
  if decide ('0' ≤ c ∧ c ≤ '9') then some (c.toNat - 48)
  else if decide ('A' ≤ c ∧ c ≤ 'F') then some (c.toNat - 55)
  else if decide ('a' ≤ c ∧ c ≤ 'f') then some (c.toNat - 87)
  else none

/-- Is `b` a UTF-8 continuation byte? -/
def contByte (b : Nat) : Bool := decide (0x80 ≤ b ∧ b < 0xC0)

/-- The replacement character emitted for invalid UTF-8 sequences. -/
def replChar : Char := Char.ofNat 0xFFFD

/-- Fuel-driven UTF-8 decoder with replacement-character fallback for
invalid sequences; the fuel is always instantiated with the input
length, so the `0`-fuel branch is unreachable. -/
def utf8DecodeGo : Nat → List Nat → List Char
  | 0, _ => []
  | _ + 1, [] => []
  | f + 1, b :: rest =>
    if b < 0x80 then Char.ofNat b :: utf8DecodeGo f rest
    else if decide (0xC2 ≤ b ∧ b < 0xE0) then
      match rest with
      | b2 :: r2 =>
        if contByte b2 then
          Char.ofNat ((b - 0xC0) * 64 + (b2 - 0x80)) :: utf8DecodeGo f r2
        else replChar :: utf8DecodeGo f rest
      | [] => [replChar]
    else if decide (0xE0 ≤ b ∧ b < 0xF0) then
      match rest with
      | b2 :: b3 :: r3 =>
        if contByte b2 && contByte b3 then
          Char.ofNat ((b - 0xE0) * 4096 + (b2 - 0x80) * 64 + (b3 - 0x80)) ::
            utf8DecodeGo f r3
        else replChar :: utf8DecodeGo f rest
      | _ => [replChar]
    else if decide (0xF0 ≤ b ∧ b < 0xF5) then
      match rest with
      | b2 :: b3 :: b4 :: r4 =>
        if contByte b2 && contByte b3 && contByte b4 then
          Char.ofNat
              ((b - 0xF0) * 262144 + (b2 - 0x80) * 4096 +
                (b3 - 0x80) * 64 + (b4 - 0x80)) ::
            utf8DecodeGo f r4
        else replChar :: utf8DecodeGo f rest
      | _ => [replChar]
    else replChar :: utf8DecodeGo f rest

/-- Consume a maximal run of `%XX` escapes, returning the decoded
bytes and the remainder (fuel-driven, fuel = input length). -/
def pctRunGo : Nat → List Char → List Nat × List Char
  | 0, l => ([], l)
  | f + 1, l =>
    match l with
    | '%' :: h₁ :: h₂ :: rest =>
      match hexVal h₁, hexVal h₂ with
      | some a, some b =>
        let r := pctRunGo f rest
        ((16 * a + b) :: r.1, r.2)
      | _, _ => ([], l)
    | _ => ([], l)

/-- Fuel-driven `application/x-www-form-urlencoded` percent-decoder:
`+` becomes a space, maximal `%XX` runs are decoded as UTF-8, all other
characters pass through. -/
def formDecodeGo : Nat → List Char → List Char
  | 0, _ => []
  | _ + 1, [] => []
  | f + 1, c :: rest =>
    if c = '+' then ' ' :: formDecodeGo f rest
    else if c = '%' then
      match pctRunGo (c :: rest).length (c :: rest) with
      | ([], _) => c :: formDecodeGo f rest
      | (bs, r) => utf8DecodeGo bs.length bs ++ formDecodeGo f r
    else c :: formDecodeGo f rest

/-- Percent-decode one `application/x-www-form-urlencoded` token. -/
def formDecodeL (l : List Char) : List Char := formDecodeGo l.length l

/-- Parse one `name=value` piece of a query string (a piece without
`=` denotes the empty value), percent-decoding both sides. -/
def parsePieceL (p : List Char) : List Char × List Char :=
  match splitFirstL '=' p with
  | (n, none) => (formDecodeL n, [])
  | (n, some v) => (formDecodeL n, formDecodeL v)

/-- Parse a raw query string into its name/value pairs in order,
skipping empty pieces, as `URLSearchParams` does. -/
def parseQueryL (q : List Char) : List (List Char × List Char) :=
  ((splitCharL '&' q).filter (fun p => !p.isEmpty)).map parsePieceL

/-- First value stored under a name — the model of
`URLSearchParams.get` (which returns `null`, here `none`, when the
name is absent). -/
def getParamL : List (List Char × List Char) → List Char → Option (List Char)
  | [], _ => none
  | (k, v) :: t, n => if k = n then some v else getParamL t n

/-! ## Model of `new URL("https://" + url)` -/

/-- Characters the URL parser strips from the whole input. -/
def urlStripChar (c : Char) : Bool :=
  decide (c = '\t') || decide (c = '\n') || decide (c = '\r')

/-- WHATWG input normalization as it affects the part after
`https://`: trailing C0-controls/spaces are trimmed, then all
tabs/newlines removed (the leading trim only touches the literal
`https://` prefix, so it does not appear here). -/
def normalizeURLInput (l : List Char) : List Char :=
  ((l.reverse.dropWhile fun c => decide (c ≤ ' ')).reverse).filter
    fun c => !urlStripChar c

/-- Forbidden host code points (WHATWG), plus `%` and non-ASCII, which
the model rejects instead of running host percent-decoding / IDNA. -/
def forbiddenHostChar (c : Char) : Bool :=
  decide (c ≤ ' ') || decide (c = '#') || decide (c = '/') ||
    decide (c = '<') || decide (c = '>') || decide (c = '?') ||
    decide (c = '@') || decide (c = '[') || decide (c = '\\') ||
    decide (c = ']') || decide (c = '^') || decide (c = '|') ||
    decide (c = '%') || decide (128 ≤ c.toNat)

/-- Validate and canonicalize a hostname: non-empty, no forbidden
characters, ASCII letters lowercased. -/
def canonHostL (l : List Char) : Option (List Char) :=
  if l.isEmpty || l.any forbiddenHostChar then none
  else some (l.map Char.toLower)

/-- Decimal value of a digit list. -/
def digitsToNatL (l : List Char) : Nat :=
  l.foldl (fun n c => n * 10 + (c.toNat - 48)) 0

/-- Parse the authority part into the `URL.host` value (hostname plus
canonicalized port): userinfo up to the last `@` is dropped, the port
must be numeric and at most 65535, and the `https` default port 443
is omitted from the result. -/
def parseAuthorityL (a : List Char) : Option (List Char) :=
  let hp := (splitCharL '@' a).getLastD []
  match splitFirstL ':' hp with
  | (hc, none) => canonHostL hc
  | (hc, some pc) =>
    if pc.isEmpty then canonHostL hc
    else if pc.all Char.isDigit then
      let p := digitsToNatL pc
      if 65535 < p then none
      else if p = 443 then canonHostL hc
      else (canonHostL hc).map fun h => h ++ ':' :: (Nat.repr p).data
    else none

/-- Extract the raw query component from what follows the authority:
either directly after `?`, or after the path when the authority was
terminated by a slash; a fragment is cut off at `#`. -/
def extractQueryL : List Char → List Char
  | [] => []
  | c :: r =>
    if c = '?' then (takeUntilL (fun x => decide (x = '#')) r).1
    else if c = '#' then []
    else
      match (takeUntilL (fun x => decide (x = '?') || decide (x = '#')) r).2 with
      | '?' :: r3 => (takeUntilL (fun x => decide (x = '#')) r3).1
      | _ => []

/-- Model of `new URL("https://" + u)` restricted to the two pieces
the component reads: `.host` and the raw query feeding
`.searchParams`.  `none` models the constructor throwing. -/
def parseURLhq (u : String) : Option (String × String) :=
  let l := normalizeURLInput u.data
  let ar := takeUntilL
    (fun c => decide (c = '/') || decide (c = '\\') ||
      decide (c = '?') || decide (c = '#')) l
  match parseAuthorityL ar.1 with
  | none => none
  | some h => some (⟨h⟩, ⟨extractQueryL ar.2⟩)

/-! ## The FieldSet and the codec (`splitFormData` / `serializeFormData`) -/

/-- The structured field set of the component; `none` is JavaScript
`undefined`. -/
structure FieldSet where
  host : Option String
  owner : Option String
  repo : Option String
  organization : Option String
  workspace : Option String
  project : Option String
deriving DecidableEq, Repr

/-- The all-absent field set the decoder falls back to. -/
def allAbsentFS : FieldSet := ⟨none, none, none, none, none, none⟩

/-- JavaScript `a || b` on `string | undefined` values: `a` unless it
is `undefined` or the (falsy) empty string. -/
def jsOrStr (a b : Option String) : Option String :=
  match a with
  | some s => if s = "" then b else some s
  | none => b

/-- JavaScript truthiness of a `string | undefined` value. -/
def jsTruthyStr : Option String → Bool
  | none => false
  | some s => !(s = "")

/-- Translation of `splitFormData` (RepoUrlPicker.tsx lines 37-62):
guard on a truthy `url`, parse `https://` + url, read `host` and the
five query parameters, `owner` falling back to `allowedOwners?.[0]`;
any parse failure yields the all-absent field set. -/
def splitFormData (url : Option String) (allowedOwners : Option (List String)) :
    FieldSet :=
  match url with
  | none => allAbsentFS
  | some u =>
    if u = "" then allAbsentFS
    else
      match parseURLhq u with
      | none => allAbsentFS
      | some (host, query) =>
        let ps := parseQueryL query.data
        let get := fun (n : String) =>
          (getParamL ps n.data).map fun l => (⟨l⟩ : String)
        { host := some host
          owner := jsOrStr (get "owner") (allowedOwners.bind List.head?)
          repo := jsOrStr (get "repo") none
          organization := jsOrStr (get "organization") none
          workspace := jsOrStr (get "workspace") none
          project := jsOrStr (get "project") none }

/-- One `params.set(name, value)` call guarded by truthiness of the
value, as in `serializeFormData`. -/
def optPair (n : String) (v : Option String) : List (String × String) :=
  match v with
  | none => []
  | some s => if s = "" then [] else [(n, s)]

/-- The parameter list `serializeFormData` builds, in its fixed
order: owner, repo, organization, workspace, project. -/
def fieldPairs (d : FieldSet) : List (String × String) :=
  optPair "owner" d.owner ++ optPair "repo" d.repo ++
    optPair "organization" d.organization ++
    optPair "workspace" d.workspace ++ optPair "project" d.project

/-- Join query pieces with `&` (the serializer of `URLSearchParams`,
whose keys here are distinct so `set` appends in call order). -/
def joinAmp : List (List Char) → List Char
  | [] => []
  | [p] => p
  | p :: ps => p ++ '&' :: joinAmp ps

/-- Model of `URLSearchParams.toString`. -/
def searchParamsToString (ps : List (String × String)) : String :=
  ⟨joinAmp (ps.map fun pr => encodeWFUList pr.1.data ++ '=' :: encodeWFUList pr.2.data)⟩

/-- Translation of `serializeFormData` (RepoUrlPicker.tsx lines
64-94): `undefined` on a falsy host, otherwise
`` `${data.host}?${params.toString()}` ``. -/
def serializeFormData (d : FieldSet) : Option String :=
  match d.host with
  | none => none
  | some h =>
    if h = "" then none
    else some (h ++ "?" ++ searchParamsToString (fieldPairs d))

/-! ## Visibility selector (JSX conditions, RepoUrlPicker.tsx lines 284-415) -/

/-- RepoUrlPicker.tsx line 305: the Organization input is rendered
under `host === 'dev.azure.com'`. -/
def orgShown (host : Option String) : Bool :=
  decide (host = some "dev.azure.com")

/-- RepoUrlPicker.tsx line 320: the bitbucket block is rendered under
`host && integrationApi.byHost(host)?.type === 'bitbucket'`; the
looked-up type is passed in as `providerType`. -/
def bitbucketBlockShown (host providerType : Option String) : Bool :=
  jsTruthyStr host && decide (providerType = some "bitbucket")

/-- RepoUrlPicker.tsx line 323: the Workspace input additionally needs
`host === 'bitbucket.org'`. -/
def workspaceShown (host providerType : Option String) : Bool :=
  bitbucketBlockShown host providerType && decide (host = some "bitbucket.org")

/-- RepoUrlPicker.tsx lines 340-354: the Project input is rendered
whenever the bitbucket block is. -/
def projectShown (host providerType : Option String) : Bool :=
  bitbucketBlockShown host providerType

/-- RepoUrlPicker.tsx lines 358-360: free-text Owner input, rendered
under `host && type !== 'bitbucket' && !allowedOwners`. -/
def ownerTextShown (host providerType : Option String)
    (allowedOwners : Option (List String)) : Bool :=
  jsTruthyStr host && !decide (providerType = some "bitbucket") &&
    allowedOwners.isNone

/-- RepoUrlPicker.tsx lines 376-378: Owner select, rendered under
`host && type !== 'bitbucket' && allowedOwners` (any supplied array,
even an empty one, is truthy). -/
def ownerSelectShown (host providerType : Option String)
    (allowedOwners : Option (List String)) : Bool :=
  jsTruthyStr host && !decide (providerType = some "bitbucket") &&
    allowedOwners.isSome

/-- Some owner input (free text or select) is rendered. -/
def ownerShown (host providerType : Option String)
    (allowedOwners : Option (List String)) : Bool :=
  ownerTextShown host providerType allowedOwners ||
    ownerSelectShown host providerType allowedOwners

/-- RepoUrlPicker.tsx lines 401-414: the Repository input is always
rendered. -/
def repoShown : Bool := true

/-- RepoUrlPicker.tsx lines 286-303: the Host select is always
rendered. -/
def hostShown : Bool := true

/-! ## Default-host effect and credential side-effect -/

/-- One entry of the integrations list returned by
`scaffolderApi.getIntegrationsList`. -/
structure Integration where
  host : String
  title : String
deriving DecidableEq, Repr

/-- Translation of the `useEffect` body (RepoUrlPicker.tsx lines
246-268): when `host === undefined && integrations?.length`, it calls
`onChange(serializeFormData({host: integrations[0].host, ...rest}))`.
The result is `some v` when `onChange` is called with `v`, `none` when
the effect emits nothing. -/
def defaultHostEffect (host owner repo organization workspace project : Option String)
    (integrations : Option (List Integration)) : Option (Option String) :=
  match host, integrations with
  | none, some (i :: _) =>
    some (serializeFormData ⟨some i.host, owner, repo, organization, workspace, project⟩)
  | _, _ => none

/-- Translation of the `onBlur` handler (RepoUrlPicker.tsx lines
119-136).  `withCredentials` is the configured key (when the
`withCredentials` ui option is present), `getCredentials` the external
credential service, `secrets` the current secrets context.  Returns
the requested URL (when a request fires) and the secrets context
afterwards.  The store operation is modelled from the spec:
`setSecret` (from `../../secrets`, not part of the sources) stores the
token under the configured key in a shared secrets context, modelled
here as a pointwise update. -/
def runOnBlur (withCredentials : Option String) (host owner repo : Option String)
    (getCredentials : String → String) (secrets : String → Option String) :
    Option String × (String → Option String) :=
  match withCredentials with
  | none => (none, secrets)
  | some key =>
    if jsTruthyStr host && jsTruthyStr owner && jsTruthyStr repo then
      let url := "https://" ++ host.getD "" ++ "/" ++ owner.getD "" ++ "/" ++ repo.getD ""
      (some url, fun k => if k = key then some (getCredentials url) else secrets k)
    else (none, secrets)

/-! ## Well-behaved inputs for the round-trip statements -/

/-- Hostname characters on which the modelled URL parser provably
coincides with the platform parser: lowercase ASCII letters, `.`
and `-`. -/
def niceHostChar (c : Char) : Bool :=
  c.isLower || decide (c = '.') || decide (c = '-')

/-- A host string the parser returns unchanged. -/
def niceHost (s : String) : Bool :=
  !decide (s = "") && s.data.all niceHostChar

/-- A host field suitable for the round trip. -/
def niceHostO : Option String → Bool
  | none => false
  | some s => niceHost s

/-- An optional field suitable for the round trip: absent, or a
non-empty value of characters the urlencoded codec leaves
unchanged. -/
def niceFieldB : Option String → Bool
  | none => true
  | some s => !decide (s = "") && s.data.all safeQueryChar

/-! ## Easy consequences and claim theorems -/

/-- C2 counterexample: a defined but empty host is falsy in
JavaScript, so the encoder returns `undefined` although the host field
is defined. -/
theorem C2_counterexample :
    serializeFormData ⟨some "", none, none, none, none, none⟩ = none ∧
      FieldSet.host ⟨some "", none, none, none, none, none⟩ ≠ none := by
  decide

/-- C2 (amended): `serializeFormData` returns `none` exactly when the
host is `undefined` or the empty string; on every other field set it
returns a string. -/
theorem C2_none_iff_host_falsy (d : FieldSet) :
    serializeFormData d = none ↔ (d.host = none ∨ d.host = some "") := by
  obtain ⟨h, o, r, g, w, p⟩ := d
  cases h with
  | none => simp [serializeFormData]
  | some s =>
    by_cases hs : s = "" <;> simp [serializeFormData, hs]

/-- C3: the decoder is fail-soft — it is a total function, and on a
falsy input or any parse failure it returns the all-absent field
set. -/
theorem C3_fail_soft (s : String) (ao : Option (List String))
    (h : s = "" ∨ parseURLhq s = none) :
    splitFormData (some s) ao = allAbsentFS := by
  rcases h with h | h
  · simp [splitFormData, h]
  · by_cases hs : s = "" <;> simp [splitFormData, hs, h]

/-- Witness for C3 at the unparseable input `"?"` (empty host). -/
theorem C3_fail_soft_witness :
    (("?" : String) = "" ∨ parseURLhq "?" = none) ∧
      splitFormData (some "?") none = allAbsentFS :=
  ⟨Or.inr (by decide), C3_fail_soft "?" none (Or.inr (by decide))⟩

/-- C4 counterexample: decoding an `undefined` serialized value skips
the whole parse (the `if (url)` guard), so no owner backfill happens
and the owner comes back `undefined`, not `"acme"`. -/
theorem C4_counterexample :
    (splitFormData none (some ["acme"])).owner ≠ some "acme" := by
  decide

/-- C4 (amended): decoding an `undefined` serialized value yields the
all-absent field set whatever the allowed owners are; the backfill
from the first allowed owner only applies when a defined serialized
value parses successfully without a non-empty owner parameter. -/
theorem C4_decode_undefined :
    (∀ ao, splitFormData none ao = allAbsentFS) ∧
      (splitFormData (some "github.com?") (some ["acme"])).owner = some "acme" := by
  refine ⟨fun ao => rfl, ?_⟩
  decide

/-- C5: the encoder writes only the non-empty optional fields, in the
fixed order owner, repo, organization, workspace, project — on the
field set with host `dev.azure.com`, organization `org1`, repo `r1` it
produces exactly `dev.azure.com?repo=r1&organization=org1`. -/
theorem C5_encoder_fixed_order :
    serializeFormData ⟨some "dev.azure.com", none, some "r1", some "org1", none, none⟩ =
      some "dev.azure.com?repo=r1&organization=org1" := by
  decide

/-- C6 counterexample: with host `dev.azure.com` and provider type
`azure`, the owner input is rendered (its condition only excludes the
`bitbucket` type), contradicting the claim that owner is hidden in the
azure case. -/
theorem C6_counterexample :
    ownerShown (some "dev.azure.com") (some "azure") none = true := by
  decide

/-- C6 (amended): the organization input is shown exactly for the
literal host `dev.azure.com` (independently of provider type); for
that host with provider type `azure` the rendered fields are host,
organization, repo — and also owner, while workspace and project stay
hidden. -/
theorem C6_azure_visibility :
    (∀ ao : Option (List String),
      orgShown (some "dev.azure.com") = true ∧
        ownerShown (some "dev.azure.com") (some "azure") ao = true ∧
        workspaceShown (some "dev.azure.com") (some "azure") = false ∧
        projectShown (some "dev.azure.com") (some "azure") = false ∧
        repoShown = true) ∧
      ∀ h : String, orgShown (some h) = true ↔ h = "dev.azure.com" := by
  constructor
  · intro ao
    refine ⟨by decide, ?_, by decide, by decide, rfl⟩
    cases ao <;> rfl
  · intro h
    simp [orgShown]

/-- C7: for any truthy host whose provider type is `bitbucket`, the
project and repo inputs are rendered, no owner input is, and the
workspace input is rendered exactly when the host is
`bitbucket.org`. -/
theorem C7_bitbucket_visibility (h : String) (ao : Option (List String))
    (hne : h ≠ "") :
    projectShown (some h) (some "bitbucket") = true ∧
      repoShown = true ∧
      ownerShown (some h) (some "bitbucket") ao = false ∧
      (workspaceShown (some h) (some "bitbucket") = true ↔ h = "bitbucket.org") := by
  refine ⟨?_, rfl, ?_, ?_⟩
  · simp [projectShown, bitbucketBlockShown, jsTruthyStr, hne]
  · simp [ownerShown, ownerTextShown, ownerSelectShown]
  · simp [workspaceShown, bitbucketBlockShown, jsTruthyStr, hne]

/-- Witness for C7 at host `bitbucket.org`. -/
theorem C7_bitbucket_visibility_witness :
    projectShown (some "bitbucket.org") (some "bitbucket") = true ∧
      workspaceShown (some "bitbucket.org") (some "bitbucket") = true :=
  ⟨(C7_bitbucket_visibility "bitbucket.org" none (by decide)).1,
    (C7_bitbucket_visibility "bitbucket.org" none (by decide)).2.2.2.mpr rfl⟩

/-- C8: the default-host effect fires exactly while the decoded host
is `undefined`: with a non-empty integrations list it emits the
encoder output for the field set whose host is the first integration's
host and whose other fields are the current ones; once the host is
defined it emits nothing. -/
theorem C8_default_host_effect
    (owner repo organization workspace project : Option String) :
    (∀ (i : Integration) (is : List Integration) (ints : Option (List Integration)),
      ints = some (i :: is) →
        defaultHostEffect none owner repo organization workspace project ints =
          some (serializeFormData
            ⟨some i.host, owner, repo, organization, workspace, project⟩)) ∧
      ∀ (h : String) (ints : Option (List Integration)),
        defaultHostEffect (some h) owner repo organization workspace project ints =
          none := by
  constructor
  · intro i is ints hints
    subst hints
    rfl
  · intro h ints
    rcases ints with _ | ⟨_ | ⟨i, is⟩⟩ <;> rfl

/-- Witness for C8: the effect fires for an undefined host with one
integration, and stays silent once a host is chosen. -/
theorem C8_default_host_effect_witness :
    defaultHostEffect none none none none none none
        (some [⟨"gitlab.com", "GitLab"⟩]) =
      some (serializeFormData ⟨some "gitlab.com", none, none, none, none, none⟩) ∧
      defaultHostEffect (some "github.com") none none none none none
          (some [⟨"gitlab.com", "GitLab"⟩]) = none :=
  ⟨(C8_default_host_effect none none none none none).1
      ⟨"gitlab.com", "GitLab"⟩ [] (some [⟨"gitlab.com", "GitLab"⟩]) rfl,
    (C8_default_host_effect none none none none none).2 "github.com"
      (some [⟨"gitlab.com", "GitLab"⟩])⟩

/-! ## Character-class facts -/

theorem safeQueryChar_toNat (c : Char) (h : safeQueryChar c = true) :
    (48 ≤ c.toNat ∧ c.toNat ≤ 57) ∨ (65 ≤ c.toNat ∧ c.toNat ≤ 90) ∨
      (97 ≤ c.toNat ∧ c.toNat ≤ 122) ∨ c.toNat = 42 ∨ c.toNat = 45 ∨
      c.toNat = 46 ∨ c.toNat = 95 := by
  simp only [safeQueryChar, Char.isAlphanum, Char.isAlpha, Char.isUpper,
    Char.isLower, Char.isDigit, Bool.or_eq_true, Bool.and_eq_true,
    decide_eq_true_eq] at h
  obtain hA | hw := h
  · obtain hB | ho := hA
    · obtain hC | hm := hB
      · obtain hD | hs := hC
        · obtain hE | hd := hD
          · obtain hu | hl := hE
            · exact Or.inr (Or.inl ⟨hu.1, hu.2⟩)
            · exact Or.inr (Or.inr (Or.inl ⟨hl.1, hl.2⟩))
          · exact Or.inl ⟨hd.1, hd.2⟩
        · exact Or.inr (Or.inr (Or.inr (Or.inl (hs ▸ rfl))))
      · exact Or.inr (Or.inr (Or.inr (Or.inr (Or.inl (hm ▸ rfl)))))
    · exact Or.inr (Or.inr (Or.inr (Or.inr (Or.inr (Or.inl (ho ▸ rfl))))))
  · exact Or.inr (Or.inr (Or.inr (Or.inr (Or.inr (Or.inr (hw ▸ rfl))))))

theorem niceHostChar_toNat (c : Char) (h : niceHostChar c = true) :
    (97 ≤ c.toNat ∧ c.toNat ≤ 122) ∨ c.toNat = 46 ∨ c.toNat = 45 := by
  simp only [niceHostChar, Char.isLower, Bool.or_eq_true, Bool.and_eq_true,
    decide_eq_true_eq] at h
  obtain h | h := h
  · obtain ⟨h1, h2⟩ | h := h
    · exact Or.inl ⟨h1, h2⟩
    · exact Or.inr (Or.inl (h ▸ rfl))
  · exact Or.inr (Or.inr (h ▸ rfl))

theorem safeQueryChar_not_space (c : Char) (h : safeQueryChar c = true) :
    decide (c ≤ ' ') = false := by
  have hb := safeQueryChar_toNat c h
  refine decide_eq_false fun hle => ?_
  have hle' : c.toNat ≤ 32 := hle
  omega

theorem niceHostChar_not_space (c : Char) (h : niceHostChar c = true) :
    decide (c ≤ ' ') = false := by
  have hb := niceHostChar_toNat c h
  refine decide_eq_false fun hle => ?_
  have hle' : c.toNat ≤ 32 := hle
  omega

theorem niceHostChar_not_forbidden (c : Char) (h : niceHostChar c = true) :
    forbiddenHostChar c = false := by
  have hb := niceHostChar_toNat c h
  simp only [forbiddenHostChar, Bool.or_eq_false_iff, decide_eq_false_iff_not]
  refine ⟨⟨⟨⟨⟨⟨⟨⟨⟨⟨⟨⟨⟨?_, ?_⟩, ?_⟩, ?_⟩, ?_⟩, ?_⟩, ?_⟩, ?_⟩, ?_⟩, ?_⟩, ?_⟩, ?_⟩, ?_⟩, ?_⟩
  any_goals exact fun e => absurd (e ▸ h) (by decide)
  · exact fun hle => by
      have h32 : c.toNat ≤ 32 := hle
      omega
  · omega

theorem niceHostChar_toLower (c : Char) (h : niceHostChar c = true) :
    c.toLower = c := by
  have hb := niceHostChar_toNat c h
  rw [Char.toLower]
  exact if_neg (by omega)

/-! ## Splitting and joining lemmas -/

theorem splitCharL_sepFree (sep : Char) (l : List Char) (h : ∀ c ∈ l, c ≠ sep) :
    splitCharL sep l = [l] := by
  induction l with
  | nil => rfl
  | cons c rest ih =>
    have hc : c ≠ sep := h c (List.mem_cons_self c rest)
    rw [splitCharL, if_neg hc, ih fun d hd => h d (List.mem_cons_of_mem c hd)]

theorem splitCharL_append (sep : Char) (p rest : List Char)
    (h : ∀ c ∈ p, c ≠ sep) :
    splitCharL sep (p ++ sep :: rest) = p :: splitCharL sep rest := by
  induction p with
  | nil => simp [splitCharL]
  | cons c t ih =>
    have hc : c ≠ sep := h c (List.mem_cons_self c t)
    rw [List.cons_append, splitCharL, if_neg hc,
      ih fun d hd => h d (List.mem_cons_of_mem c hd)]

theorem takeUntilL_noHit (p : Char → Bool) (l : List Char)
    (h : ∀ c ∈ l, p c = false) : takeUntilL p l = (l, []) := by
  induction l with
  | nil => rfl
  | cons c rest ih =>
    rw [takeUntilL, if_neg (by simp [h c (List.mem_cons_self c rest)]),
      ih fun d hd => h d (List.mem_cons_of_mem c hd)]

theorem takeUntilL_hit (p : Char → Bool) (pre : List Char) (t : Char)
    (post : List Char) (hpre : ∀ c ∈ pre, p c = false) (ht : p t = true) :
    takeUntilL p (pre ++ t :: post) = (pre, t :: post) := by
  induction pre with
  | nil => simp [takeUntilL, ht]
  | cons c cs ih =>
    rw [List.cons_append, takeUntilL,
      if_neg (by simp [hpre c (List.mem_cons_self c cs)]),
      ih fun d hd => hpre d (List.mem_cons_of_mem c hd)]

theorem splitFirstL_sepFree (sep : Char) (l : List Char)
    (h : ∀ c ∈ l, c ≠ sep) : splitFirstL sep l = (l, none) := by
  induction l with
  | nil => rfl
  | cons c rest ih =>
    rw [splitFirstL, if_neg (h c (List.mem_cons_self c rest)),
      ih fun d hd => h d (List.mem_cons_of_mem c hd)]

theorem splitFirstL_hit (sep : Char) (p rest : List Char)
    (h : ∀ c ∈ p, c ≠ sep) :
    splitFirstL sep (p ++ sep :: rest) = (p, some rest) := by
  induction p with
  | nil => simp [splitFirstL]
  | cons c t ih =>
    rw [List.cons_append, splitFirstL, if_neg (h c (List.mem_cons_self c t)),
      ih fun d hd => h d (List.mem_cons_of_mem c hd)]

/-! ## Urlencoded codec identity on safe characters -/

theorem encodeWFUList_safe (l : List Char)
    (h : ∀ c ∈ l, safeQueryChar c = true) : encodeWFUList l = l := by
  induction l with
  | nil => rfl
  | cons c t ih =>
    rw [encodeWFUList, List.flatMap_cons, if_pos (h c (List.mem_cons_self c t))]
    rw [encodeWFUList] at ih
    rw [ih fun d hd => h d (List.mem_cons_of_mem c hd)]
    rfl

theorem formDecodeGo_plain (f : Nat) (l : List Char) (hf : l.length ≤ f)
    (h : ∀ c ∈ l, c ≠ '+' ∧ c ≠ '%') : formDecodeGo f l = l := by
  induction f generalizing l with
  | zero =>
    cases l with
    | nil => rfl
    | cons c t => simp at hf
  | succ f ih =>
    cases l with
    | nil => rfl
    | cons c t =>
      have hc := h c (List.mem_cons_self c t)
      rw [formDecodeGo, if_neg (by simp [hc.1]), if_neg (by simp [hc.2]),
        ih t (by simpa using Nat.le_of_succ_le_succ hf)
          fun d hd => h d (List.mem_cons_of_mem c hd)]

theorem formDecodeL_safe (l : List Char)
    (h : ∀ c ∈ l, safeQueryChar c = true) : formDecodeL l = l :=
  formDecodeGo_plain l.length l le_rfl fun c hc =>
    ⟨fun e => absurd (e ▸ h c hc) (by decide),
      fun e => absurd (e ▸ h c hc) (by decide)⟩

/-! ## Query-string round trip -/

theorem parsePieceL_enc (n v : List Char)
    (hn : ∀ c ∈ n, safeQueryChar c = true)
    (hv : ∀ c ∈ v, safeQueryChar c = true) :
    parsePieceL (n ++ '=' :: v) = (n, v) := by
  rw [parsePieceL,
    splitFirstL_hit '=' n v fun c hc => fun e => absurd (e ▸ hn c hc) (by decide)]
  show (formDecodeL n, formDecodeL v) = (n, v)
  rw [formDecodeL_safe n hn, formDecodeL_safe v hv]

theorem splitAmp_join (pieces : List (List Char)) (hne : pieces ≠ [])
    (h : ∀ p ∈ pieces, ∀ c ∈ p, c ≠ '&') :
    splitCharL '&' (joinAmp pieces) = pieces := by
  induction pieces with
  | nil => exact absurd rfl hne
  | cons p ps ih =>
    cases ps with
    | nil => exact splitCharL_sepFree '&' p (h p (List.mem_cons_self p []))
    | cons q qs =>
      rw [show joinAmp (p :: q :: qs) = p ++ '&' :: joinAmp (q :: qs) from rfl]
      rw [splitCharL_append '&' p _ (h p (List.mem_cons_self p (q :: qs)))]
      rw [ih (by simp) fun r hr => h r (List.mem_cons_of_mem p hr)]

theorem parseQueryL_join (pairs : List (List Char × List Char))
    (h : ∀ pr ∈ pairs, (∀ c ∈ pr.1, safeQueryChar c = true) ∧
      (∀ c ∈ pr.2, safeQueryChar c = true)) :
    parseQueryL (joinAmp (pairs.map fun pr => pr.1 ++ '=' :: pr.2)) = pairs := by
  cases pairs with
  | nil => rfl
  | cons pr0 prs =>
    rw [parseQueryL,
      splitAmp_join _ (by simp) ?hfree]
    case hfree =>
      intro p hp c hc
      obtain ⟨pr, hpr, rfl⟩ := List.mem_map.mp hp
      rcases List.mem_append.mp hc with hc1 | hc2
      · exact fun e => absurd (e ▸ (h pr hpr).1 c hc1) (by decide)
      · rcases List.mem_cons.mp hc2 with rfl | hc3
        · decide
        · exact fun e => absurd (e ▸ (h pr hpr).2 c hc3) (by decide)
    rw [List.filter_eq_self.mpr ?hne]
    case hne =>
      intro p hp
      obtain ⟨pr, hpr, rfl⟩ := List.mem_map.mp hp
      cases h1 : pr.1 <;> simp
    rw [List.map_map]
    have : ∀ pr ∈ pr0 :: prs,
        (parsePieceL ∘ fun pr : List Char × List Char => pr.1 ++ '=' :: pr.2) pr = pr := by
      intro pr hpr
      obtain ⟨n, v⟩ := pr
      exact parsePieceL_enc n v (h ⟨n, v⟩ hpr).1 (h ⟨n, v⟩ hpr).2
    rw [List.map_congr_left this]
    exact List.map_id' (pr0 :: prs)

/-! ## URL parsing on well-behaved host/query pairs -/

theorem normalizeURLInput_id (l : List Char)
    (h : ∀ c ∈ l, decide (c ≤ ' ') = false) :
    normalizeURLInput l = l := by
  have hstrip : ∀ c ∈ l, urlStripChar c = false := by
    intro c hc
    have hc' := h c hc
    simp only [urlStripChar, Bool.or_eq_false_iff, decide_eq_false_iff_not]
    refine ⟨⟨?_, ?_⟩, ?_⟩ <;> intro e <;> rw [e] at hc' <;>
      exact absurd hc' (by decide)
  rw [normalizeURLInput]
  have hdrop : l.reverse.dropWhile (fun c => decide (c ≤ ' ')) = l.reverse := by
    cases hr : l.reverse with
    | nil => rfl
    | cons a as =>
      have ha : a ∈ l := List.mem_reverse.mp (hr ▸ List.mem_cons_self a as)
      rw [List.dropWhile_cons, if_neg (by simp [h a ha])]
  rw [hdrop, List.reverse_reverse,
    List.filter_eq_self.mpr fun c hc => by simp [hstrip c hc]]

theorem canonHostL_nice (l : List Char) (hne : l ≠ [])
    (h : ∀ c ∈ l, niceHostChar c = true) : canonHostL l = some l := by
  rw [canonHostL, if_neg, List.map_congr_left fun c hc => niceHostChar_toLower c (h c hc)]
  · exact congrArg some (List.map_id' l)
  · simp only [Bool.or_eq_true, List.any_eq_true, not_or]
    constructor
    · cases l with
      | nil => exact absurd rfl hne
      | cons c t => simp
    · rintro ⟨c, hc, hf⟩
      rw [niceHostChar_not_forbidden c (h c hc)] at hf
      exact absurd hf (by decide)

theorem parseAuthorityL_nice (l : List Char) (hne : l ≠ [])
    (h : ∀ c ∈ l, niceHostChar c = true) : parseAuthorityL l = some l := by
  rw [parseAuthorityL,
    splitCharL_sepFree '@' l fun c hc e => absurd (e ▸ h c hc) (by decide)]
  rw [show ([l] : List (List Char)).getLastD [] = l from rfl]
  rw [splitFirstL_sepFree ':' l fun c hc e => absurd (e ▸ h c hc) (by decide)]
  exact canonHostL_nice l hne h

theorem extractQueryL_query (ql : List Char) (h : ∀ c ∈ ql, c ≠ '#') :
    extractQueryL ('?' :: ql) = ql := by
  simp only [extractQueryL, if_pos]
  rw [takeUntilL_noHit _ ql fun c hc => by simp [h c hc]]

theorem parseURLhq_append (hl ql : List Char) (hne : hl ≠ [])
    (hh : ∀ c ∈ hl, niceHostChar c = true)
    (hq : ∀ c ∈ ql, safeQueryChar c = true ∨ c = '&' ∨ c = '=') :
    parseURLhq ⟨hl ++ '?' :: ql⟩ = some (⟨hl⟩, ⟨ql⟩) := by
  have hqs : ∀ c ∈ ql, decide (c ≤ ' ') = false := by
    intro c hc
    rcases hq c hc with hs | rfl | rfl
    · exact safeQueryChar_not_space c hs
    · decide
    · decide
  have hall : ∀ c ∈ hl ++ '?' :: ql, decide (c ≤ ' ') = false := by
    intro c hc
    rcases List.mem_append.mp hc with hc | hc
    · exact niceHostChar_not_space c (hh c hc)
    · rcases List.mem_cons.mp hc with rfl | hc
      · decide
      · exact hqs c hc
  simp only [parseURLhq]
  rw [normalizeURLInput_id _ hall]
  rw [takeUntilL_hit _ hl '?' ql ?hpre (by decide)]
  case hpre =>
    intro c hc
    have hcn := hh c hc
    simp only [Bool.or_eq_false_iff, decide_eq_false_iff_not]
    refine ⟨⟨⟨?_, ?_⟩, ?_⟩, ?_⟩ <;> exact fun e => absurd (e ▸ hcn) (by decide)
  rw [show ((hl, '?' :: ql) : List Char × List Char).1 = hl from rfl,
    show ((hl, '?' :: ql) : List Char × List Char).2 = '?' :: ql from rfl]
  rw [parseAuthorityL_nice hl hne hh]
  show some ((⟨hl⟩ : String), (⟨extractQueryL ('?' :: ql)⟩ : String)) = _
  rw [extractQueryL_query ql ?hnum]
  case hnum =>
    intro c hc
    rcases hq c hc with hs | rfl | rfl
    · exact fun e => absurd (e ▸ hs) (by decide)
    · decide
    · decide

/-! ## Looking up the five parameters after decoding -/

theorem getParamL_dpOptPair_ne (m : String) (v : Option String)
    (l : List (List Char × List Char)) (n : List Char) (hne : m.data ≠ n) :
    getParamL ((optPair m v).map (fun pr => (pr.1.data, pr.2.data)) ++ l) n =
      getParamL l n := by
  rcases v with _ | s
  · rfl
  · by_cases hs : s = "" <;> simp [optPair, hs, getParamL, hne]

theorem getParamL_dpOptPair_ne' (m : String) (v : Option String) (n : List Char)
    (hne : m.data ≠ n) :
    getParamL ((optPair m v).map fun pr => (pr.1.data, pr.2.data)) n = none := by
  rcases v with _ | s
  · rfl
  · by_cases hs : s = "" <;> simp [optPair, hs, getParamL, hne]

theorem getParamL_dpOptPair_self (m : String) (v : Option String)
    (l : List (List Char × List Char)) (hnone : getParamL l m.data = none) :
    getParamL ((optPair m v).map (fun pr => (pr.1.data, pr.2.data)) ++ l) m.data =
      (match v with
        | none => none
        | some s => if s = "" then none else some s.data) := by
  rcases v with _ | s
  · simpa [optPair] using hnone
  · by_cases hs : s = "" <;> simp [optPair, hs, getParamL, hnone]

theorem getParamL_fieldPairs_owner (d : FieldSet) :
    getParamL ((fieldPairs d).map fun pr => (pr.1.data, pr.2.data)) "owner".data =
      (match d.owner with
        | none => none
        | some s => if s = "" then none else some s.data) := by
  simp only [fieldPairs, List.map_append, List.append_assoc]
  rw [getParamL_dpOptPair_self _ _ _ ?rest]
  case rest =>
    rw [getParamL_dpOptPair_ne _ _ _ _ (by decide),
      getParamL_dpOptPair_ne _ _ _ _ (by decide),
      getParamL_dpOptPair_ne _ _ _ _ (by decide),
      getParamL_dpOptPair_ne' _ _ _ (by decide)]

theorem getParamL_fieldPairs_repo (d : FieldSet) :
    getParamL ((fieldPairs d).map fun pr => (pr.1.data, pr.2.data)) "repo".data =
      (match d.repo with
        | none => none
        | some s => if s = "" then none else some s.data) := by
  simp only [fieldPairs, List.map_append, List.append_assoc]
  rw [getParamL_dpOptPair_ne _ _ _ _ (by decide)]
  rw [getParamL_dpOptPair_self _ _ _ ?rest]
  case rest =>
    rw [getParamL_dpOptPair_ne _ _ _ _ (by decide),
      getParamL_dpOptPair_ne _ _ _ _ (by decide),
      getParamL_dpOptPair_ne' _ _ _ (by decide)]

theorem getParamL_fieldPairs_organization (d : FieldSet) :
    getParamL ((fieldPairs d).map fun pr => (pr.1.data, pr.2.data))
        "organization".data =
      (match d.organization with
        | none => none
        | some s => if s = "" then none else some s.data) := by
  simp only [fieldPairs, List.map_append, List.append_assoc]
  rw [getParamL_dpOptPair_ne _ _ _ _ (by decide),
    getParamL_dpOptPair_ne _ _ _ _ (by decide)]
  rw [getParamL_dpOptPair_self _ _ _ ?rest]
  case rest =>
    rw [getParamL_dpOptPair_ne _ _ _ _ (by decide),
      getParamL_dpOptPair_ne' _ _ _ (by decide)]

theorem getParamL_fieldPairs_workspace (d : FieldSet) :
    getParamL ((fieldPairs d).map fun pr => (pr.1.data, pr.2.data))
        "workspace".data =
      (match d.workspace with
        | none => none
        | some s => if s = "" then none else some s.data) := by
  simp only [fieldPairs, List.map_append, List.append_assoc]
  rw [getParamL_dpOptPair_ne _ _ _ _ (by decide),
    getParamL_dpOptPair_ne _ _ _ _ (by decide),
    getParamL_dpOptPair_ne _ _ _ _ (by decide)]
  rw [getParamL_dpOptPair_self _ _ _ ?rest]
  case rest =>
    rw [getParamL_dpOptPair_ne' _ _ _ (by decide)]

theorem getParamL_fieldPairs_project (d : FieldSet) :
    getParamL ((fieldPairs d).map fun pr => (pr.1.data, pr.2.data))
        "project".data =
      (match d.project with
        | none => none
        | some s => if s = "" then none else some s.data) := by
  simp only [fieldPairs, List.map_append, List.append_assoc]
  rw [getParamL_dpOptPair_ne _ _ _ _ (by decide),
    getParamL_dpOptPair_ne _ _ _ _ (by decide),
    getParamL_dpOptPair_ne _ _ _ _ (by decide),
    getParamL_dpOptPair_ne _ _ _ _ (by decide)]
  rcases d.project with _ | s
  · rfl
  · by_cases hs : s = "" <;> simp [optPair, hs, getParamL]

/-! ## Assembling the round trip -/

theorem string_eq_of_data (s t : String) (h : s.data = t.data) : s = t := by
  cases s
  cases t
  exact congrArg String.mk h

theorem mem_optPair (n : String) (v : Option String) (pr : String × String)
    (h : pr ∈ optPair n v) : pr.1 = n ∧ v = some pr.2 ∧ pr.2 ≠ "" := by
  rcases v with _ | s
  · simp [optPair] at h
  · by_cases hs : s = ""
    · rw [optPair, if_pos hs] at h
      simp at h
    · rw [optPair, if_neg hs] at h
      have he := List.mem_singleton.mp h
      subst he
      exact ⟨rfl, rfl, hs⟩

theorem optPair_safe (m : String) (v : Option String) (pr : String × String)
    (hpr : pr ∈ optPair m v) (hv : niceFieldB v = true)
    (hm : ∀ c ∈ m.data, safeQueryChar c = true) :
    (∀ c ∈ pr.1.data, safeQueryChar c = true) ∧
      ∀ c ∈ pr.2.data, safeQueryChar c = true := by
  obtain ⟨h1, h2, _⟩ := mem_optPair m v pr hpr
  refine ⟨by rw [h1]; exact hm, ?_⟩
  rw [h2] at hv
  simp only [niceFieldB, Bool.and_eq_true, List.all_eq_true] at hv
  exact hv.2

theorem fieldPairs_safe (d : FieldSet)
    (ho : niceFieldB d.owner = true) (hr : niceFieldB d.repo = true)
    (hg : niceFieldB d.organization = true) (hw : niceFieldB d.workspace = true)
    (hp : niceFieldB d.project = true) :
    ∀ pr ∈ fieldPairs d, (∀ c ∈ pr.1.data, safeQueryChar c = true) ∧
      ∀ c ∈ pr.2.data, safeQueryChar c = true := by
  intro pr hpr
  simp only [fieldPairs, List.mem_append] at hpr
  obtain hA | h5 := hpr
  · obtain hB | h4 := hA
    · obtain hC | h3 := hB
      · obtain h1 | h2 := hC
        · exact optPair_safe _ _ _ h1 ho (by decide)
        · exact optPair_safe _ _ _ h2 hr (by decide)
      · exact optPair_safe _ _ _ h3 hg (by decide)
    · exact optPair_safe _ _ _ h4 hw (by decide)
  · exact optPair_safe _ _ _ h5 hp (by decide)

theorem mem_joinAmp (pieces : List (List Char)) (c : Char)
    (hc : c ∈ joinAmp pieces) : c = '&' ∨ ∃ p ∈ pieces, c ∈ p := by
  induction pieces with
  | nil => simp [joinAmp] at hc
  | cons p ps ih =>
    cases ps with
    | nil => exact Or.inr ⟨p, List.mem_cons_self p [], hc⟩
    | cons q qs =>
      rw [show joinAmp (p :: q :: qs) = p ++ '&' :: joinAmp (q :: qs) from rfl] at hc
      rcases List.mem_append.mp hc with hc1 | hc2
      · exact Or.inr ⟨p, List.mem_cons_self p (q :: qs), hc1⟩
      · rcases List.mem_cons.mp hc2 with rfl | hc3
        · exact Or.inl rfl
        · rcases ih hc3 with h1 | ⟨pp, hpp, hcc⟩
          · exact Or.inl h1
          · exact Or.inr ⟨pp, List.mem_cons_of_mem p hpp, hcc⟩

theorem jsOr_decode (v : Option String) (hb : niceFieldB v = true)
    (backup : Option String) :
    jsOrStr ((match v with
      | none => (none : Option (List Char))
      | some s => if s = "" then none else some s.data).map
        fun l => (⟨l⟩ : String)) backup = jsOrStr v backup := by
  rcases v with _ | s
  · rfl
  · have hs : ¬ s = "" := by
      simp only [niceFieldB, Bool.and_eq_true, Bool.not_eq_true',
        decide_eq_false_iff_not] at hb
      exact hb.1
    show jsOrStr ((if s = "" then (none : Option (List Char)) else some s.data).map
      fun l => (⟨l⟩ : String)) backup = jsOrStr (some s) backup
    rw [if_neg hs]
    rfl

theorem jsOr_decode_bare (v : Option String) (hb : niceFieldB v = true) :
    jsOrStr ((match v with
      | none => (none : Option (List Char))
      | some s => if s = "" then none else some s.data).map
        fun l => (⟨l⟩ : String)) none = v := by
  rcases v with _ | s
  · rfl
  · have hs : ¬ s = "" := by
      simp only [niceFieldB, Bool.and_eq_true, Bool.not_eq_true',
        decide_eq_false_iff_not] at hb
      exact hb.1
    show jsOrStr ((if s = "" then (none : Option (List Char)) else some s.data).map
      fun l => (⟨l⟩ : String)) none = some s
    rw [if_neg hs]
    show (if (⟨s.data⟩ : String) = "" then none else some (⟨s.data⟩ : String)) = some s
    rw [if_neg hs]

theorem splitFormData_serializeFormData_nice (d : FieldSet)
    (ao : Option (List String)) (hh : niceHostO d.host = true)
    (ho : niceFieldB d.owner = true) (hr : niceFieldB d.repo = true)
    (hg : niceFieldB d.organization = true) (hw : niceFieldB d.workspace = true)
    (hp : niceFieldB d.project = true) :
    splitFormData (serializeFormData d) ao =
      ⟨d.host, jsOrStr d.owner (ao.bind List.head?), d.repo, d.organization,
        d.workspace, d.project⟩ := by
  obtain ⟨h0, o, r, g, w, p⟩ := d
  rcases h0 with _ | h
  · simp [niceHostO] at hh
  have hh' : ¬ h = "" ∧ ∀ c ∈ h.data, niceHostChar c = true := by
    simpa only [niceHostO, niceHost, Bool.and_eq_true, Bool.not_eq_true',
      decide_eq_false_iff_not, List.all_eq_true] using hh
  obtain ⟨hne, hchars⟩ := hh'
  have hdne : h.data ≠ [] := fun e => hne (string_eq_of_data h "" e)
  have henc : serializeFormData ⟨some h, o, r, g, w, p⟩ =
      some (h ++ "?" ++ searchParamsToString (fieldPairs ⟨some h, o, r, g, w, p⟩)) := by
    simp only [serializeFormData]
    rw [if_neg hne]
  have hsafe := fieldPairs_safe ⟨some h, o, r, g, w, p⟩ ho hr hg hw hp
  have hqdata : (searchParamsToString (fieldPairs ⟨some h, o, r, g, w, p⟩)).data =
      joinAmp ((fieldPairs ⟨some h, o, r, g, w, p⟩).map fun pr =>
        pr.1.data ++ '=' :: pr.2.data) := by
    show joinAmp _ = _
    congr 1
    refine List.map_congr_left fun pr hpr => ?_
    rw [encodeWFUList_safe _ (hsafe pr hpr).1, encodeWFUList_safe _ (hsafe pr hpr).2]
  have hudata : (h ++ "?" ++
        searchParamsToString (fieldPairs ⟨some h, o, r, g, w, p⟩)).data =
      h.data ++ '?' :: joinAmp ((fieldPairs ⟨some h, o, r, g, w, p⟩).map fun pr =>
        pr.1.data ++ '=' :: pr.2.data) := by
    rw [String.data_append, String.data_append, hqdata,
      show ("?" : String).data = ['?'] from rfl]
    simp [List.append_assoc]
  have hqchars : ∀ c ∈ joinAmp ((fieldPairs ⟨some h, o, r, g, w, p⟩).map fun pr =>
      pr.1.data ++ '=' :: pr.2.data),
      safeQueryChar c = true ∨ c = '&' ∨ c = '=' := by
    intro c hc
    rcases mem_joinAmp _ c hc with rfl | ⟨piece, hpiece, hcp⟩
    · exact Or.inr (Or.inl rfl)
    · obtain ⟨pr, hpr, rfl⟩ := List.mem_map.mp hpiece
      rcases List.mem_append.mp hcp with h1 | h2
      · exact Or.inl ((hsafe pr hpr).1 c h1)
      · rcases List.mem_cons.mp h2 with rfl | h3
        · exact Or.inr (Or.inr rfl)
        · exact Or.inl ((hsafe pr hpr).2 c h3)
  have hu : h ++ "?" ++ searchParamsToString (fieldPairs ⟨some h, o, r, g, w, p⟩) =
      ⟨h.data ++ '?' :: joinAmp ((fieldPairs ⟨some h, o, r, g, w, p⟩).map fun pr =>
        pr.1.data ++ '=' :: pr.2.data)⟩ := string_eq_of_data _ _ hudata
  have hparse : parseURLhq (h ++ "?" ++
        searchParamsToString (fieldPairs ⟨some h, o, r, g, w, p⟩)) =
      some (h, ⟨joinAmp ((fieldPairs ⟨some h, o, r, g, w, p⟩).map fun pr =>
        pr.1.data ++ '=' :: pr.2.data)⟩) := by
    rw [hu]
    exact parseURLhq_append h.data _ hdne hchars hqchars
  have hquery : parseQueryL (joinAmp ((fieldPairs ⟨some h, o, r, g, w, p⟩).map fun pr =>
      pr.1.data ++ '=' :: pr.2.data)) =
      (fieldPairs ⟨some h, o, r, g, w, p⟩).map fun pr => (pr.1.data, pr.2.data) := by
    have hs : ∀ pr' ∈ (fieldPairs ⟨some h, o, r, g, w, p⟩).map
        fun pr : String × String => (pr.1.data, pr.2.data),
        (∀ c ∈ pr'.1, safeQueryChar c = true) ∧
          ∀ c ∈ pr'.2, safeQueryChar c = true := by
      intro pr' hpr'
      obtain ⟨pr, hpr, rfl⟩ := List.mem_map.mp hpr'
      exact hsafe pr hpr
    have hj := parseQueryL_join _ hs
    rw [List.map_map] at hj
    exact hj
  rw [henc]
  simp only [splitFormData]
  rw [if_neg ?une]
  case une =>
    intro e
    have he := congrArg String.data e
    rw [hudata] at he
    exact absurd he (by simp)
  rw [hparse]
  dsimp only
  rw [hquery]
  rw [getParamL_fieldPairs_owner ⟨some h, o, r, g, w, p⟩,
    getParamL_fieldPairs_repo ⟨some h, o, r, g, w, p⟩,
    getParamL_fieldPairs_organization ⟨some h, o, r, g, w, p⟩,
    getParamL_fieldPairs_workspace ⟨some h, o, r, g, w, p⟩,
    getParamL_fieldPairs_project ⟨some h, o, r, g, w, p⟩]
  rw [jsOr_decode o ho (ao.bind List.head?), jsOr_decode_bare r hr,
    jsOr_decode_bare g hg, jsOr_decode_bare w hw, jsOr_decode_bare p hp]

/-- C1 counterexample: the field set with host `"h"` and repo `""` has
a defined host, but the round trip loses the empty-string repo (the
encoder skips falsy fields), so decode of encode differs from the
input even though no owner backfill is involved. -/
theorem C1_counterexample :
    splitFormData (serializeFormData ⟨some "h", none, some "", none, none, none⟩)
        none ≠ ⟨some "h", none, some "", none, none, none⟩ := by
  decide

/-- C1 (amended): the round-trip law holds on field sets whose host is
a non-empty lowercase hostname (characters a-z, `.`, `-`) and whose
optional fields are absent or non-empty strings of urlencoded-safe
characters: decoding the encoded string reproduces the field set
except that the owner is backfilled from the head of the
allowed-owners list when it was absent or empty. -/
theorem C1_roundtrip (d : FieldSet) (ao : Option (List String))
    (hh : niceHostO d.host = true) (ho : niceFieldB d.owner = true)
    (hr : niceFieldB d.repo = true) (hg : niceFieldB d.organization = true)
    (hw : niceFieldB d.workspace = true) (hp : niceFieldB d.project = true) :
    splitFormData (serializeFormData d) ao =
      ⟨d.host, jsOrStr d.owner (ao.bind List.head?), d.repo, d.organization,
        d.workspace, d.project⟩ :=
  splitFormData_serializeFormData_nice d ao hh ho hr hg hw hp

/-- Witness for C1 on a concrete field set. -/
theorem C1_roundtrip_witness :
    niceHostO (some "github.com") = true ∧ niceFieldB (some "acme") = true ∧
      splitFormData
          (serializeFormData
            ⟨some "github.com", some "acme", some "widgets", none, none, none⟩)
          (some ["zzz"]) =
        ⟨some "github.com", some "acme", some "widgets", none, none, none⟩ := by
  refine ⟨by decide, by decide, ?_⟩
  have hth := C1_roundtrip
    ⟨some "github.com", some "acme", some "widgets", none, none, none⟩
    (some ["zzz"]) (by decide) (by decide) (by decide) (by decide) (by decide)
    (by decide)
  exact hth.trans (by decide)

/-- C9: the blur/host-change handler fires a credential request
exactly when the `withCredentials` option is present and host, owner
and repo are all truthy; when it fires, the requested URL is
`https://host/owner/repo`, the token returned for that URL is stored
under the configured key, and other keys are untouched; when the guard
fails, the secrets context is unchanged. -/
theorem C9_credential_guard (wc : Option String) (host owner repo : Option String)
    (getCredentials : String → String) (secrets : String → Option String) :
    ((runOnBlur wc host owner repo getCredentials secrets).1.isSome =
        (wc.isSome && (jsTruthyStr host && jsTruthyStr owner && jsTruthyStr repo))) ∧
      (∀ key h o r, wc = some key → host = some h → owner = some o →
        repo = some r → ¬ h = "" → ¬ o = "" → ¬ r = "" →
        (runOnBlur wc host owner repo getCredentials secrets).1 =
            some ("https://" ++ h ++ "/" ++ o ++ "/" ++ r) ∧
          (runOnBlur wc host owner repo getCredentials secrets).2 key =
            some (getCredentials ("https://" ++ h ++ "/" ++ o ++ "/" ++ r)) ∧
          ∀ k, k ≠ key →
            (runOnBlur wc host owner repo getCredentials secrets).2 k = secrets k) ∧
      ((runOnBlur wc host owner repo getCredentials secrets).1 = none →
        ∀ k, (runOnBlur wc host owner repo getCredentials secrets).2 k =
          secrets k) := by
  refine ⟨?_, ?_, ?_⟩
  · rcases wc with _ | key
    · rfl
    · simp only [runOnBlur]
      by_cases hc : (jsTruthyStr host && jsTruthyStr owner && jsTruthyStr repo) = true
      · rw [if_pos hc]
        simp [hc]
      · rw [if_neg hc]
        simp only [Bool.not_eq_true] at hc
        simp [hc]
  · intro key h o r hwc hh ho hr hne one rne
    subst hwc
    subst hh
    subst ho
    subst hr
    simp only [runOnBlur]
    rw [if_pos ?cond]
    case cond => simp [jsTruthyStr, hne, one, rne]
    refine ⟨rfl, ?_, ?_⟩
    · show (if key = key then
          some (getCredentials ("https://" ++ (some h).getD "" ++ "/" ++
            (some o).getD "" ++ "/" ++ (some r).getD ""))
        else secrets key) = _
      rw [if_pos rfl]
      rfl
    · intro k hk
      show (if k = key then
          some (getCredentials ("https://" ++ (some h).getD "" ++ "/" ++
            (some o).getD "" ++ "/" ++ (some r).getD ""))
        else secrets k) = secrets k
      rw [if_neg hk]
  · intro hnone k
    rcases wc with _ | key
    · rfl
    · simp only [runOnBlur] at hnone ⊢
      by_cases hc : (jsTruthyStr host && jsTruthyStr owner && jsTruthyStr repo) = true
      · rw [if_pos hc] at hnone
        exact absurd hnone (by simp)
      · rw [if_neg hc]

/-- Witness for C9: with the option configured under key `tok` and
all three fields present, the request URL and the stored secret are as
described. -/
theorem C9_credential_guard_witness :
    (runOnBlur (some "tok") (some "h") (some "o") (some "r")
        (fun u => u) fun _ => none).1 = some "https://h/o/r" ∧
      (runOnBlur (some "tok") (some "h") (some "o") (some "r")
          (fun u => u) fun _ => none).2 "tok" = some "https://h/o/r" := by
  have hth := (C9_credential_guard (some "tok") (some "h") (some "o") (some "r")
      (fun u => u) fun _ => none).2.1 "tok" "h" "o" "r" rfl rfl rfl rfl
      (by decide) (by decide) (by decide)
  exact ⟨hth.1.trans (by decide), hth.2.1.trans (by decide)⟩

/-- C10 counterexample: the encoder output for host `"A"` is `"A?"`
(it does contain the `?`), but decoding does not recover host `"A"`:
the URL parser lowercases the hostname to `"a"`. -/
theorem C10_counterexample :
    serializeFormData ⟨some "A", none, none, none, none, none⟩ = some "A?" ∧
      (splitFormData (some "A?") none).host ≠ some "A" := by
  decide

/-- C10 (amended): for every non-empty host the encoder output on the
otherwise-absent field set is literally the host followed by `?` —
the separator is always present; when the host is additionally a
lowercase hostname over a-z, `.`, `-`, decoding that string (with no
allowed owners) recovers the host with every other field absent. -/
theorem C10_empty_query (h : String) (hne : h ≠ "") :
    serializeFormData ⟨some h, none, none, none, none, none⟩ = some (h ++ "?") ∧
      (niceHost h = true →
        splitFormData (some (h ++ "?")) none =
          ⟨some h, none, none, none, none, none⟩) := by
  have hser : serializeFormData ⟨some h, none, none, none, none, none⟩ =
      some (h ++ "?") := by
    simp only [serializeFormData]
    rw [if_neg hne]
    show some (h ++ "?" ++ ⟨[]⟩) = some (h ++ "?")
    congr 1
    apply string_eq_of_data
    rw [String.data_append, String.data_append]
    simp
  refine ⟨hser, fun hnice => ?_⟩
  have hmain := splitFormData_serializeFormData_nice
    ⟨some h, none, none, none, none, none⟩ none hnice rfl rfl rfl rfl rfl
  rw [hser] at hmain
  exact hmain

/-- Witness for C10 at host `github.com`. -/
theorem C10_empty_query_witness :
    ("github.com" : String) ≠ "" ∧ niceHost "github.com" = true ∧
      serializeFormData ⟨some "github.com", none, none, none, none, none⟩ =
        some ("github.com" ++ "?") ∧
      splitFormData (some ("github.com" ++ "?")) none =
        ⟨some "github.com", none, none, none, none, none⟩ := by
  have hth := C10_empty_query "github.com" (by decide)
  exact ⟨by decide, by decide, hth.1, hth.2 (by decide)⟩
